import Mathlib

/-!
Verification of the pseudotoy shader-playground core: the URL-state codec
(`encodeShaderForUrl` / `getShaderFromUrl` from `src/App.tsx`), the
marker-based shader splitter (`parseShader`), the shader template constants
from `src/CustomShaderExtension.ts`, the palette padding contract, and the
compile / copy-link / bootstrap state transitions.

Text is modelled as `List Char` (sequences of Unicode scalar values); bytes
are `Nat` values below 256.  JavaScript built-ins used by the source are
embedded from their standard semantics: `TextEncoder`/`TextDecoder` are the
WHATWG UTF-8 encoder and the replacing UTF-8 decoder, `btoa`/`atob` are
base64 serialisation and WHATWG forgiving-base64 parsing.
-/

/-! ## JavaScript string helpers: trim, indexOf -/

/-- Character class removed by JavaScript `String.prototype.trim`
(ECMA-262 WhiteSpace and LineTerminator code points). -/
def isJsWhitespace (c : Char) : Bool :=
  let n := c.toNat
  (9 ≤ n && n ≤ 13) || n = 32 || n = 160 || n = 5760 ||
    (8192 ≤ n && n ≤ 8202) || n = 8232 || n = 8233 || n = 8239 ||
    n = 8287 || n = 12288 || n = 65279

/-- Remove trailing JavaScript whitespace. -/
def trimEnd (l : List Char) : List Char :=
  (l.reverse.dropWhile isJsWhitespace).reverse

/-- JavaScript `String.prototype.trim`: drop leading and trailing whitespace. -/
def jsTrim (l : List Char) : List Char :=
  trimEnd (l.dropWhile isJsWhitespace)

/-- Does `t` start with `pat`?  (`t.take pat.length == pat`.) -/
def startsWith (pat t : List Char) : Bool :=
  t.take pat.length == pat

/-- JavaScript `String.prototype.indexOf` restricted to a fixed pattern:
index of the first position where `pat` occurs in the text, if any. -/
def indexOf? (pat : List Char) : List Char → Option Nat
  | [] => if startsWith pat [] then some 0 else none
  | c :: cs => if startsWith pat (c :: cs) then some 0 else (indexOf? pat cs).map (· + 1)

/-! ## UTF-8 (WHATWG `TextEncoder` / replacing `TextDecoder`) -/

/-- UTF-8 encoding of one Unicode scalar value. -/
def utf8EncodeChar (n : Nat) : List Nat :=
  if n < 128 then [n]
  else if n < 2048 then [192 + n / 64, 128 + n % 64]
  else if n < 65536 then [224 + n / 4096, 128 + n / 64 % 64, 128 + n % 64]
  else [240 + n / 262144, 128 + n / 4096 % 64, 128 + n / 64 % 64, 128 + n % 64]

/-- UTF-8 encoding of a text (the semantics of `new TextEncoder().encode`). -/
def utf8Encode : List Char → List Nat
  | [] => []
  | c :: cs => utf8EncodeChar c.toNat ++ utf8Encode cs

/-- U+FFFD REPLACEMENT CHARACTER. -/
def replChar : Char := Char.ofNat 65533

/-- WHATWG UTF-8 decoder in replacement mode (the semantics of
`new TextDecoder().decode`): ill-formed subsequences become U+FFFD,
decoding never fails.  Boundary checks follow the WHATWG byte ranges
(E0/ED and F0/F4 special second-byte windows), and a failed continuation
byte is reprocessed as a fresh lead byte. -/
def utf8Decode : List Nat → List Char
  | [] => []
  | b :: bs =>
    if b ≤ 127 then Char.ofNat b :: utf8Decode bs
    else if b ≤ 193 then replChar :: utf8Decode bs
    else if b ≤ 223 then
      match h1 : bs with
      | [] => [replChar]
      | b1 :: bs1 =>
        if 128 ≤ b1 ∧ b1 ≤ 191 then
          Char.ofNat ((b - 192) * 64 + (b1 - 128)) :: utf8Decode bs1
        else replChar :: utf8Decode bs
    else if b ≤ 239 then
      match h1 : bs with
      | [] => [replChar]
      | b1 :: bs1 =>
        if (if b = 224 then 160 else 128) ≤ b1 ∧ b1 ≤ (if b = 237 then 159 else 191) then
          match h2 : bs1 with
          | [] => [replChar]
          | b2 :: bs2 =>
            if 128 ≤ b2 ∧ b2 ≤ 191 then
              Char.ofNat ((b - 224) * 4096 + (b1 - 128) * 64 + (b2 - 128)) :: utf8Decode bs2
            else replChar :: utf8Decode bs1
        else replChar :: utf8Decode bs
    else if b ≤ 244 then
      match h1 : bs with
      | [] => [replChar]
      | b1 :: bs1 =>
        if (if b = 240 then 144 else 128) ≤ b1 ∧ b1 ≤ (if b = 244 then 143 else 191) then
          match h2 : bs1 with
          | [] => [replChar]
          | b2 :: bs2 =>
            if 128 ≤ b2 ∧ b2 ≤ 191 then
              match h3 : bs2 with
              | [] => [replChar]
              | b3 :: bs3 =>
                if 128 ≤ b3 ∧ b3 ≤ 191 then
                  Char.ofNat ((b - 240) * 262144 + (b1 - 128) * 4096 + (b2 - 128) * 64 + (b3 - 128)) ::
                    utf8Decode bs3
                else replChar :: utf8Decode bs2
            else replChar :: utf8Decode bs1
        else replChar :: utf8Decode bs
    else replChar :: utf8Decode bs
termination_by l => l.length
decreasing_by all_goals simp_all [List.length_cons] <;> omega

/-! ## Base64 (`btoa` / forgiving `atob`) -/

/-- The standard base64 alphabet, digit value to character. -/
def b64Char (n : Nat) : Char :=
  if n < 26 then Char.ofNat (65 + n)
  else if n < 52 then Char.ofNat (71 + n)
  else if n < 62 then Char.ofNat (n - 4)
  else if n = 62 then '+' else '/'

/-- The standard base64 alphabet, character to digit value. -/
def b64Digit? (c : Char) : Option Nat :=
  let n := c.toNat
  if 65 ≤ n ∧ n ≤ 90 then some (n - 65)
  else if 97 ≤ n ∧ n ≤ 122 then some (n - 71)
  else if 48 ≤ n ∧ n ≤ 57 then some (n + 4)
  else if c = '+' then some 62
  else if c = '/' then some 63
  else none

/-- The 6-bit digits of the base64 serialisation of a byte sequence. -/
def encDigits : List Nat → List Nat
  | [] => []
  | [a] => [a / 4, a % 4 * 16]
  | [a, b] => [a / 4, a % 4 * 16 + b / 16, b % 16 * 4]
  | a :: b :: c :: rest =>
      a / 4 :: (a % 4 * 16 + b / 16) :: (b % 16 * 4 + c / 64) :: c % 64 :: encDigits rest

/-- Number of `'='` padding characters appended by base64 serialisation. -/
def padLen (n : Nat) : Nat :=
  if n % 3 = 1 then 2 else if n % 3 = 2 then 1 else 0

/-- JavaScript `btoa` on a byte sequence: standard padded base64. -/
def base64Encode (bs : List Nat) : List Char :=
  (encDigits bs).map b64Char ++ List.replicate (padLen bs.length) '='

/-- ASCII whitespace stripped by WHATWG forgiving-base64 decoding. -/
def isAsciiWhitespace (c : Char) : Bool :=
  c.toNat = 9 || c.toNat = 10 || c.toNat = 12 || c.toNat = 13 || c.toNat = 32

/-- Remove one or two trailing `'='` characters (forgiving-base64 step 2). -/
def dropPad (l : List Char) : List Char :=
  match l.reverse with
  | '=' :: '=' :: r => r.reverse
  | '=' :: r => r.reverse
  | _ => l

/-- Map every character to its base64 digit, failing on any character
outside the alphabet. -/
def b64DecodeChars : List Char → Option (List Nat)
  | [] => some []
  | c :: cs =>
    match b64Digit? c, b64DecodeChars cs with
    | some d, some ds => some (d :: ds)
    | _, _ => none

/-- Reassemble bytes from 6-bit digits; a trailing group of two or three
digits contributes one or two bytes, discarding leftover bits. -/
def b64DecodeDigits : List Nat → List Nat
  | d0 :: d1 :: d2 :: d3 :: rest =>
      (d0 * 4 + d1 / 16) :: (d1 % 16 * 16 + d2 / 4) :: (d2 % 4 * 64 + d3) :: b64DecodeDigits rest
  | [d0, d1] => [d0 * 4 + d1 / 16]
  | [d0, d1, d2] => [d0 * 4 + d1 / 16, d1 % 16 * 16 + d2 / 4]
  | _ => []

/-- Forgiving-base64 steps 3–5 on padding-free data: reject a length
remainder of one or any character outside the alphabet, else decode. -/
def atobUnpadded (u : List Char) : Option (List Nat) :=
  if u.length % 4 = 1 then none
  else
    match b64DecodeChars u with
    | none => none
    | some ds => some (b64DecodeDigits ds)

/-- Forgiving-base64 on whitespace-free data: remove up to two trailing
`'='` when the length is a multiple of four, then decode. -/
def atobNoWs (t : List Char) : Option (List Nat) :=
  atobUnpadded (if t.length % 4 = 0 then dropPad t else t)

/-- JavaScript `atob`: WHATWG forgiving-base64 decode.  Strips ASCII
whitespace, removes up to two trailing `'='` when the length is a multiple
of four, rejects a remainder of one and any character outside the
alphabet, and otherwise produces the byte sequence. -/
def atob (s : List Char) : Option (List Nat) :=
  atobNoWs (s.filter (fun c => !isAsciiWhitespace c))

/-! ## URL state codec (`src/App.tsx` lines 14–35) -/

/-- The character substitution applied after `btoa`: `'+' → '-'`, `'/' → '_'`. -/
def urlSubstEncode (c : Char) : Char :=
  if c = '+' then '-' else if c = '/' then '_' else c

/-- The character substitution applied before `atob`: `'-' → '+'`, `'_' → '/'`. -/
def urlSubstDecode (c : Char) : Char :=
  if c = '-' then '+' else if c = '_' then '/' else c

/-- `encodeShaderForUrl` (App.tsx 30–35): UTF-8 bytes, `btoa`, then the
URL-safe substitution. -/
def encodeShaderForUrl (shader : List Char) : List Char :=
  (base64Encode (utf8Encode shader)).map urlSubstEncode

/-- `getShaderFromUrl` (App.tsx 15–27) applied to the fragment (the hash
with its leading `'#'` removed): `none` for an empty fragment or when
`atob` rejects the substituted token; otherwise the UTF-8 decoding of the
bytes.  The source's `try`/`catch` returning `null` is the `Option`. -/
def getShaderFromUrl (hash : List Char) : Option (List Char) :=
  if hash = [] then none
  else
    match atob (hash.map urlSubstDecode) with
    | none => none
    | some bytes => some (utf8Decode bytes)

/-- Strict RFC 4648 §5 base64url alphabet membership. -/
def isBase64UrlChar (c : Char) : Bool :=
  (65 ≤ c.toNat && c.toNat ≤ 90) || (97 ≤ c.toNat && c.toNat ≤ 122) ||
    (48 ≤ c.toNat && c.toNat ≤ 57) || c = '-' || c = '_'

/-- A well-formed base64url token: every character in the base64url
alphabet, except that up to two trailing `'='` padding characters are
allowed. -/
def isBase64UrlToken (l : List Char) : Bool :=
  (dropPad l).all isBase64UrlChar

/-! ## Shader template constants (`src/CustomShaderExtension.ts`) -/

/-- The `apply_transparent_color` helper string (CustomShaderExtension.ts 4–8). -/
def apply_transparent_color : List Char :=
  ("vec4 apply_transparent_color(vec3 color, vec3 transparentColor, bool useTransparentColor, float opacity)\x7b\n  return vec4(color, (color == transparentColor && useTransparentColor) ? 0. : opacity);\n\x7d\n").toList

/-- The default fragment shader template `fs` (CustomShaderExtension.ts 9–32). -/
def fs : List Char :=
  ("uniform vec3 transparentColor;\nuniform bool useTransparentColor;\nuniform float opacity;\n\nuniform vec3 colors[6];\n\n").toList ++
  apply_transparent_color ++
  ("\n\n// linearize \n\nvoid mutate_color(inout vec3 rgb, float intensity0, float intensity1, float intensity2, float intensity3, float intensity4, float intensity5) \x7b \n  rgb += max(0.0, min(1.0, intensity0)) * vec3(colors[0]);\n  rgb += max(0.0, min(1.0, intensity1)) * vec3(colors[1]);\n  rgb += max(0.0, min(1.0, intensity2)) * vec3(colors[2]);\n  rgb += max(0.0, min(1.0, intensity3)) * vec3(colors[3]);\n  rgb += max(0.0, min(1.0, intensity4)) * vec3(colors[4]);\n  rgb += max(0.0, min(1.0, intensity5)) * vec3(colors[5]);\n\x7d\n\nvec4 apply_opacity(vec3 rgb) \x7b\n  return vec4(apply_transparent_color(rgb, transparentColor, useTransparentColor, opacity));\n\x7d\n").toList

/-- The default injection snippet `DECKGL_MUTATE_COLOR`
(CustomShaderExtension.ts 34–38), exported as `defaultMutateColorCode`. -/
def DECKGL_MUTATE_COLOR : List Char :=
  ("vec3 rgb = rgba.rgb;\nmutate_color(rgb, intensity0, intensity1, intensity2, intensity3, intensity4, intensity5);\nrgba = apply_opacity(rgb);\n").toList

/-- Alias under the exported name (CustomShaderExtension.ts 127). -/
abbrev defaultMutateColorCode : List Char := DECKGL_MUTATE_COLOR

/-- The full display shader (CustomShaderExtension.ts 130):
`fs + '\n\n// Injection point:\n' + DECKGL_MUTATE_COLOR`. -/
def fragmentShader : List Char :=
  fs ++ ("\n\n// Injection point:\n").toList ++ DECKGL_MUTATE_COLOR

/-! ## Shader splitter (`src/App.tsx` lines 12, 37–46) -/

/-- The literal split marker (App.tsx 12). -/
def INJECTION_MARKER : List Char := ("// Injection point:").toList

/-- A split shader: the template part and the injection part. -/
structure ShaderProgram where
  fragmentShader : List Char
  mutateColorCode : List Char
deriving DecidableEq

/-- `parseShader` (App.tsx 37–46): split at the first occurrence of the
marker, trimming both parts; with no marker, the whole trimmed text is the
template and the injection defaults to `defaultMutateColorCode`.  Total:
it never fails. -/
def parseShader (text : List Char) : ShaderProgram :=
  match indexOf? INJECTION_MARKER text with
  | none => ⟨jsTrim text, defaultMutateColorCode⟩
  | some idx => ⟨jsTrim (text.take idx), jsTrim (text.drop (idx + INJECTION_MARKER.length))⟩

/-- The single-buffer display form of a program, using the delimiter
convention of the default content (CustomShaderExtension.ts 130):
template, blank line, marker line, injection. -/
def joinProgram (p : ShaderProgram) : List Char :=
  p.fragmentShader ++ ("\n\n").toList ++ INJECTION_MARKER ++ ("\n").toList ++ p.mutateColorCode

/-! ## Palette padding -/

/-- Modelled from the spec: `padColors` and the default palette are
imported from `src/utils.ts`, a file absent from the provided sources;
only its call site (CustomShaderExtension.ts 108–111) is available.
Following the spec's palette padding algorithm: produce exactly 6 RGB
triples, filling visible-channel positions with supplied colors in order,
falling back to the deterministic default palette entry for the index
when a visible position has no supplied color, and filling every
non-visible or overflow position with black.  The fixed default palette
is passed as a parameter. -/
def padColors (palette : List (Nat × Nat × Nat)) (channelsVisible : List Bool)
    (colors : List (Nat × Nat × Nat)) : List (Nat × Nat × Nat) :=
  (List.range 6).map fun i =>
    if channelsVisible.getD i false then colors.getD i (palette.getD i (0, 0, 0))
    else (0, 0, 0)

/-! ## Layer shader resolution (`CustomShaderExtension.getShaders`) -/

/-- `getShaders` (CustomShaderExtension.ts 69–95): use the custom fragment
shader and injection code when supplied and non-empty (JavaScript `||`
treats the empty string as absent), otherwise the defaults. -/
def resolveShaders (p : Option ShaderProgram) : ShaderProgram :=
  match p with
  | none => ⟨fs, DECKGL_MUTATE_COLOR⟩
  | some q =>
      ⟨if q.fragmentShader = [] then fs else q.fragmentShader,
       if q.mutateColorCode = [] then DECKGL_MUTATE_COLOR else q.mutateColorCode⟩

/-! ## App state machine (`src/App.tsx` lines 57–206) -/

/-- The state visible to the claims: the edit buffer, the applied shader
(`appliedShader` has no setter in the source, App.tsx 70), the compile
error panel, the URL fragment, and whether a reload was requested. -/
structure AppState where
  shaderText : List Char
  appliedShader : List Char
  compileError : Option (List Char)
  urlHash : List Char
  reloadRequested : Bool
deriving DecidableEq

/-- Mounting the app against a URL fragment (App.tsx 58–70): the decoded
fragment seeds both the edit buffer and the applied shader; a missing or
empty decode aborts the mount (the redirect path). -/
def initApp (hash : List Char) : Option AppState :=
  match getShaderFromUrl hash with
  | none => none
  | some s => if s = [] then none else some ⟨s, s, none, hash, false⟩

/-- Live typing (the CodeMirror `onChange`, App.tsx 251): only the edit
buffer changes. -/
def setShaderText (txt : List Char) (st : AppState) : AppState :=
  { st with shaderText := txt }

/-- `handleCompile` (App.tsx 87–99) with the external GLSL fragment parser
abstracted as `glslParse`: clear the error, parse the template part of the
edit buffer; on success store the encoded edit buffer in the URL and
request a reload, on failure surface the parser's message. -/
def handleCompile (glslParse : List Char → Except (List Char) Unit) (st : AppState) : AppState :=
  match glslParse (parseShader st.shaderText).fragmentShader with
  | Except.ok _ =>
      { st with compileError := none,
                urlHash := encodeShaderForUrl st.shaderText,
                reloadRequested := true }
  | Except.error e => { st with compileError := some e }

/-- `handleCopyLink` (App.tsx 101–105): the URL written to the clipboard. -/
def handleCopyLink (origin pathname search : List Char) (st : AppState) : List Char :=
  origin ++ pathname ++ search ++ ("#").toList ++ encodeShaderForUrl st.shaderText

/-- The programs bound to the two panes by the render effect
(App.tsx 124–148): the baseline layer receives no shader props, the
custom layer receives the split of the applied shader. -/
def renderPanes (st : AppState) : Option ShaderProgram × Option ShaderProgram :=
  (none, some (parseShader st.appliedShader))

/-- One user-visible transition of the app. -/
inductive AppStep (glslParse : List Char → Except (List Char) Unit) : AppState → AppState → Prop
  | edit (txt : List Char) (st : AppState) : AppStep glslParse st (setShaderText txt st)
  | compile (st : AppState) : AppStep glslParse st (handleCompile glslParse st)
  | reload (st st' : AppState) : st.reloadRequested = true → initApp st.urlHash = some st' →
      AppStep glslParse st st'

/-! ## Page bootstrap (`src/main.tsx`, App.tsx 58–67) -/

/-- Browser-level page state: the URL fragment, whether a full reload was
triggered, and whether the main UI was rendered. -/
structure PageState where
  hash : List Char
  reloaded : Bool
  rendered : Bool
deriving DecidableEq

/-- The `shaderFromUrl` initialisation (App.tsx 58–67).  On a missing or
empty decode the source calls `window.location.replace` with a URL that
differs only in the fragment; a fragment-only navigation does not reload
the document (the repository's own `main.tsx` comment records this:
"replace alone doesn't reload for hash-only changes"), so only the
fragment changes and the component stays on the loading screen. -/
def appMount (p : PageState) : PageState :=
  match getShaderFromUrl p.hash with
  | none => { p with hash := encodeShaderForUrl fragmentShader }
  | some s =>
      if s = [] then { p with hash := encodeShaderForUrl fragmentShader }
      else { p with rendered := true }

/-- The `main.tsx` bootstrap: with no fragment, set the fragment to the
encoded default shader and force a full reload; otherwise mount the app. -/
def mainBootstrap (p : PageState) : PageState :=
  if p.hash = [] then
    { p with hash := encodeShaderForUrl fragmentShader, reloaded := true }
  else appMount p

/-! ## Concrete sample values used by witnesses -/

/-- A parser that rejects everything with message `"E"`. -/
def rejectParser : List Char → Except (List Char) Unit :=
  fun _ => Except.error (("E").toList)

/-- A parser that accepts everything. -/
def acceptParser : List Char → Except (List Char) Unit :=
  fun _ => Except.ok ()

/-- A small concrete app state. -/
def demoState : AppState :=
  ⟨("x").toList, ("x").toList, none, encodeShaderForUrl (("x").toList), false⟩

/-! ## Generic list helpers -/

theorem getD_eq_dite {α : Type} (l : List α) (i : Nat) (d : α) :
    l.getD i d = if h : i < l.length then l.get ⟨i, h⟩ else d := by
  by_cases h : i < l.length
  · simp [List.getD_eq_getElem?_getD, List.getElem?_eq_getElem h, dif_pos h]
  · simp [List.getD_eq_getElem?_getD, List.getElem?_eq_none (Nat.le_of_not_lt h), dif_neg h]

theorem startsWith_iff (pat t : List Char) :
    startsWith pat t = true ↔ t.take pat.length = pat := by
  simp [startsWith]

theorem startsWith_append (pat r : List Char) : startsWith pat (pat ++ r) = true := by
  simp [startsWith, List.take_left]

theorem startsWith_nil_of_ne (pat : List Char) (h : pat ≠ []) :
    startsWith pat [] = false := by
  cases pat with
  | nil => exact absurd rfl h
  | cons c cs => simp [startsWith]

theorem startsWith_drop_ge (pat t : List Char) (hp : pat ≠ []) (j : Nat)
    (hj : t.length ≤ j) : startsWith pat (t.drop j) = false := by
  rw [List.drop_eq_nil_of_le hj]
  exact startsWith_nil_of_ne pat hp

theorem indexOf?_eq_some (pat t : List Char) (i : Nat) (h : indexOf? pat t = some i) :
    startsWith pat (t.drop i) = true ∧ ∀ j < i, startsWith pat (t.drop j) = false := by
  induction t generalizing i with
  | nil =>
    rw [indexOf?] at h
    by_cases hs : startsWith pat [] = true
    · rw [if_pos hs] at h
      injection h with h0
      subst h0
      exact ⟨by simpa using hs, fun j hj => absurd hj (by omega)⟩
    · rw [if_neg hs] at h
      cases h
  | cons c cs ih =>
    rw [indexOf?] at h
    by_cases hs : startsWith pat (c :: cs) = true
    · rw [if_pos hs] at h
      injection h with h0
      subst h0
      exact ⟨by simpa using hs, fun j hj => absurd hj (by omega)⟩
    · rw [if_neg hs] at h
      rcases Option.map_eq_some'.mp h with ⟨i', hi', rfl⟩
      obtain ⟨h1, h2⟩ := ih i' hi'
      refine ⟨by simpa using h1, ?_⟩
      intro j hj
      cases j with
      | zero => simpa using (Bool.eq_false_iff.mpr (fun hc => hs hc))
      | succ j' => simpa using h2 j' (by omega)

theorem indexOf?_eq_some_of (pat t : List Char) (i : Nat)
    (h1 : startsWith pat (t.drop i) = true)
    (h2 : ∀ j < i, startsWith pat (t.drop j) = false) :
    indexOf? pat t = some i := by
  induction t generalizing i with
  | nil =>
    have hi : i = 0 := by
      by_contra hne
      have := h2 0 (by omega)
      simp only [List.drop_nil] at h1 this
      rw [this] at h1
      exact Bool.false_ne_true h1
    subst hi
    simp only [List.drop_nil] at h1
    rw [indexOf?, if_pos h1]
  | cons c cs ih =>
    cases i with
    | zero =>
      simp only [List.drop_zero] at h1
      rw [indexOf?, if_pos h1]
    | succ i' =>
      have h0 : startsWith pat (c :: cs) = false := by simpa using h2 0 (by omega)
      rw [indexOf?, if_neg (by simp [h0]), ih i' (by simpa using h1)
        (fun j hj => by simpa using h2 (j + 1) (by omega))]
      rfl

theorem indexOf?_eq_none (pat t : List Char) (hp : pat ≠ [])
    (h : ∀ j < t.length, startsWith pat (t.drop j) = false) :
    indexOf? pat t = none := by
  induction t with
  | nil => simp [indexOf?, startsWith_nil_of_ne pat hp]
  | cons c cs ih =>
    rw [indexOf?, if_neg (by simpa using h 0 (by simp)),
      ih (fun j hj => by simpa using h (j + 1) (by simp; omega))]
    rfl

/-- C2: for text containing the marker exactly once, `parseShader` yields the
trimmed text strictly before the marker as the template part and the trimmed
text strictly after as the injection part; for text with no marker occurrence,
the template part is the whole trimmed text and the injection part is the
built-in default snippet.  `parseShader` is total by construction. -/
theorem parseShader_split :
    (∀ b a : List Char,
      (∀ j < (b ++ INJECTION_MARKER ++ a).length, j ≠ b.length →
        startsWith INJECTION_MARKER ((b ++ INJECTION_MARKER ++ a).drop j) = false) →
      parseShader (b ++ INJECTION_MARKER ++ a) = ⟨jsTrim b, jsTrim a⟩) ∧
    (∀ t : List Char,
      (∀ j < t.length, startsWith INJECTION_MARKER (t.drop j) = false) →
      parseShader t = ⟨jsTrim t, defaultMutateColorCode⟩) := by
  have hmne : INJECTION_MARKER ≠ [] := by decide
  constructor
  · intro b a huniq
    have hocc : startsWith INJECTION_MARKER ((b ++ INJECTION_MARKER ++ a).drop b.length) = true := by
      rw [List.append_assoc, List.drop_left]
      exact startsWith_append _ _
    have hbefore : ∀ j < b.length,
        startsWith INJECTION_MARKER ((b ++ INJECTION_MARKER ++ a).drop j) = false := by
      intro j hj
      exact huniq j (by simp; omega) (by omega)
    have hidx : indexOf? INJECTION_MARKER (b ++ INJECTION_MARKER ++ a) = some b.length :=
      indexOf?_eq_some_of _ _ _ hocc hbefore
    have htake : (b ++ INJECTION_MARKER ++ a).take b.length = b := by
      rw [List.append_assoc]
      exact List.take_left b _
    have hdrop : (b ++ INJECTION_MARKER ++ a).drop (b.length + INJECTION_MARKER.length) = a := by
      rw [← List.length_append b INJECTION_MARKER]
      exact List.drop_left _ a
    rw [parseShader, hidx]
    show ShaderProgram.mk (jsTrim ((b ++ INJECTION_MARKER ++ a).take b.length))
        (jsTrim ((b ++ INJECTION_MARKER ++ a).drop (b.length + INJECTION_MARKER.length))) = _
    rw [htake, hdrop]
  · intro t hnone
    have hidx : indexOf? INJECTION_MARKER t = none := by
      apply indexOf?_eq_none _ _ hmne
      intro j hj
      exact hnone j hj
    rw [parseShader, hidx]

theorem parseShader_split_witness :
    parseShader (("x").toList ++ INJECTION_MARKER ++ (" y").toList) =
      ⟨jsTrim (("x").toList), jsTrim ((" y").toList)⟩ ∧
    parseShader (("abc").toList) = ⟨jsTrim (("abc").toList), defaultMutateColorCode⟩ :=
  ⟨parseShader_split.1 _ _ (by decide), parseShader_split.2 _ (by decide)⟩

/-- C4: `padColors` returns exactly 6 RGB triples: visible positions receive
the supplied colors in order, a visible position with no supplied color
receives the default palette entry for its index, and every non-visible or
overflow position is black. -/
theorem padColors_padded (palette : List (Nat × Nat × Nat)) (channelsVisible : List Bool)
    (colors : List (Nat × Nat × Nat)) (hc : colors.length ≤ 6) :
    (padColors palette channelsVisible colors).length = 6 ∧
    ∀ i < 6, (padColors palette channelsVisible colors).getD i (0, 0, 0) =
      if channelsVisible.getD i false then
        (if h : i < colors.length then colors.get ⟨i, h⟩ else palette.getD i (0, 0, 0))
      else (0, 0, 0) := by
  constructor
  · simp [padColors]
  · intro i hi
    have h1 : (padColors palette channelsVisible colors).getD i (0, 0, 0) =
        if channelsVisible.getD i false then colors.getD i (palette.getD i (0, 0, 0))
        else (0, 0, 0) := by
      have hrange : List.range 6 = [0, 1, 2, 3, 4, 5] := by decide
      interval_cases i <;> simp [padColors, hrange]
    rw [h1]
    by_cases hcv : channelsVisible.getD i false = true
    · rw [if_pos hcv, if_pos hcv, getD_eq_dite]
    · rw [if_neg hcv, if_neg hcv]

theorem padColors_padded_witness :
    ([((9 : Nat), (9 : Nat), (9 : Nat))].length ≤ 6) ∧
    (padColors [(1, 1, 1), (2, 2, 2), (3, 3, 3), (4, 4, 4), (5, 5, 5), (6, 6, 6)]
      [true, true, true] [(9, 9, 9)]).length = 6 :=
  ⟨by decide,
    (padColors_padded [(1, 1, 1), (2, 2, 2), (3, 3, 3), (4, 4, 4), (5, 5, 5), (6, 6, 6)]
      [true, true, true] [(9, 9, 9)] (by decide)).1⟩

theorem b64Digit?_b64Char_fin : ∀ d : Fin 64, b64Digit? (b64Char d.val) = some d.val := by decide

theorem b64Digit?_b64Char (d : Nat) (h : d < 64) : b64Digit? (b64Char d) = some d :=
  b64Digit?_b64Char_fin ⟨d, h⟩

theorem b64Char_props_fin : ∀ d : Fin 64, b64Char d.val ≠ '=' ∧ b64Char d.val ≠ '-' ∧
    b64Char d.val ≠ '_' ∧ isAsciiWhitespace (b64Char d.val) = false := by decide

theorem encDigits_lt (bs : List Nat) (h : ∀ b ∈ bs, b < 256) :
    ∀ d ∈ encDigits bs, d < 64 := by
  induction bs using encDigits.induct with
  | case1 => intro d hd; simp [encDigits] at hd
  | case2 a =>
    intro d hd
    have ha := h a (by simp)
    simp [encDigits] at hd
    rcases hd with rfl | rfl <;> omega
  | case3 a b =>
    intro d hd
    have ha := h a (by simp)
    have hb := h b (by simp)
    simp [encDigits] at hd
    rcases hd with rfl | rfl | rfl <;> omega
  | case4 a b c rest ih =>
    intro d hd
    have ha := h a (by simp)
    have hb := h b (by simp)
    have hcc := h c (by simp)
    simp only [encDigits, List.mem_cons] at hd
    rcases hd with rfl | rfl | rfl | rfl | hd
    · omega
    · omega
    · omega
    · omega
    · exact ih (fun x hx => h x (by simp [hx])) d hd

theorem b64DecodeChars_map (ds : List Nat) (h : ∀ d ∈ ds, d < 64) :
    b64DecodeChars (ds.map b64Char) = some ds := by
  induction ds with
  | nil => rfl
  | cons d ds ih =>
    rw [List.map_cons, b64DecodeChars, b64Digit?_b64Char d (h d (by simp)),
      ih (fun x hx => h x (by simp [hx]))]

theorem b64DecodeDigits_encDigits (bs : List Nat) (h : ∀ b ∈ bs, b < 256) :
    b64DecodeDigits (encDigits bs) = bs := by
  induction bs using encDigits.induct with
  | case1 => rfl
  | case2 a =>
    have ha := h a (by simp)
    rw [encDigits, b64DecodeDigits]
    congr 1
    omega
  | case3 a b =>
    have ha := h a (by simp)
    have hb := h b (by simp)
    rw [encDigits, b64DecodeDigits]
    congr 1
    · omega
    · congr 1
      omega
  | case4 a b c rest ih =>
    have ha := h a (by simp)
    have hb := h b (by simp)
    have hcc := h c (by simp)
    rw [encDigits, b64DecodeDigits, ih (fun x hx => h x (by simp [hx]))]
    congr 1
    · omega
    · congr 1
      · omega
      · congr 1
        omega

theorem length_encDigits (bs : List Nat) :
    (encDigits bs).length % 4 = (if bs.length % 3 = 0 then 0 else bs.length % 3 + 1) := by
  induction bs using encDigits.induct with
  | case1 => rfl
  | case2 a => rfl
  | case3 a b => rfl
  | case4 a b c rest ih =>
    rw [encDigits]
    simp only [List.length_cons]
    have h3 : rest.length % 3 = 0 ∨ rest.length % 3 = 1 ∨ rest.length % 3 = 2 := by omega
    have hmod : (rest.length + 1 + 1 + 1) % 3 = rest.length % 3 := by omega
    rw [hmod]
    rcases h3 with h3 | h3 | h3 <;> rw [h3] at ih ⊢ <;> simp at ih ⊢ <;> omega

theorem padLen_le (n : Nat) : padLen n ≤ 2 := by
  rw [padLen]
  split
  · omega
  · split <;> omega

theorem dropPad_no_pad (xs : List Char) (hx : ('=' : Char) ∉ xs) : dropPad xs = xs := by
  rw [dropPad]
  split
  · next r heq => exact absurd (by rw [← List.mem_reverse, heq]; simp) hx
  · next r heq => exact absurd (by rw [← List.mem_reverse, heq]; simp) hx
  · rfl

theorem dropPad_pad (xs : List Char) (k : Nat) (hk : k ≤ 2) (hx : ('=' : Char) ∉ xs) :
    dropPad (xs ++ List.replicate k '=') = xs := by
  interval_cases k
  · rw [List.replicate, List.append_nil]
    exact dropPad_no_pad xs hx
  · have hrev : (xs ++ List.replicate 1 '=').reverse = '=' :: xs.reverse := by simp
    rw [dropPad, hrev]
    split
    · next r heq =>
      injection heq with h1 h2
      exact absurd (by rw [← List.mem_reverse, h2]; simp) hx
    · next r heq =>
      injection heq with h1 h2
      rw [← h2]
      simp
    · next h1 h2 => exact absurd rfl (h2 xs.reverse)
  · have hrev : (xs ++ List.replicate 2 '=').reverse = '=' :: '=' :: xs.reverse := by simp
    rw [dropPad, hrev]
    show xs.reverse.reverse = xs
    simp

theorem eq_not_mem_mapped (bs : List Nat) (h : ∀ b ∈ bs, b < 256) :
    ('=' : Char) ∉ (encDigits bs).map b64Char := by
  intro hc
  rcases List.mem_map.mp hc with ⟨d, hd, hdc⟩
  exact absurd hdc (b64Char_props_fin ⟨d, encDigits_lt bs h d hd⟩).1

theorem filter_base64Encode (bs : List Nat) (h : ∀ b ∈ bs, b < 256) :
    (base64Encode bs).filter (fun c => !isAsciiWhitespace c) = base64Encode bs := by
  rw [List.filter_eq_self]
  intro c hc
  rw [base64Encode] at hc
  rcases List.mem_append.mp hc with hm | hm
  · rcases List.mem_map.mp hm with ⟨d, hd, rfl⟩
    have := (b64Char_props_fin ⟨d, encDigits_lt bs h d hd⟩).2.2.2
    simpa using this
  · have hce : c = '=' := List.eq_of_mem_replicate hm
    subst hce
    decide

theorem atob_base64Encode (bs : List Nat) (h : ∀ b ∈ bs, b < 256) :
    atob (base64Encode bs) = some bs := by
  have hlen := length_encDigits bs
  have h3 : bs.length % 3 = 0 ∨ bs.length % 3 = 1 ∨ bs.length % 3 = 2 := by omega
  have hlen0 : (base64Encode bs).length % 4 = 0 := by
    rw [base64Encode]
    simp only [List.length_append, List.length_map, List.length_replicate]
    rw [padLen]
    rcases h3 with h3 | h3 | h3 <;> rw [h3] at hlen ⊢ <;> simp at hlen ⊢ <;> omega
  rw [atob, filter_base64Encode bs h, atobNoWs, if_pos hlen0, base64Encode,
    dropPad_pad _ _ (padLen_le bs.length) (eq_not_mem_mapped bs h), atobUnpadded]
  have hlen1 : ((encDigits bs).map b64Char).length % 4 ≠ 1 := by
    rw [List.length_map]
    rcases h3 with h3 | h3 | h3 <;> rw [h3] at hlen <;> simp at hlen <;> omega
  rw [if_neg hlen1]
  simp only [b64DecodeChars_map (encDigits bs) (encDigits_lt bs h)]
  rw [b64DecodeDigits_encDigits bs h]

theorem charValid (c : Char) : c.toNat < 55296 ∨ (57344 ≤ c.toNat ∧ c.toNat < 1114112) := by
  rcases c.valid with h | ⟨h1, h2⟩
  · left
    exact h
  · right
    exact ⟨h1, h2⟩

theorem utf8Decode_one (b : Nat) (rest : List Nat) (h : b ≤ 127) :
    utf8Decode (b :: rest) = Char.ofNat b :: utf8Decode rest := by
  rw [utf8Decode.eq_def]
  show (if b ≤ 127 then _ else _) = _
  rw [if_pos h]

theorem utf8Decode_two (b b1 : Nat) (rest : List Nat)
    (hb : 194 ≤ b) (hb2 : b ≤ 223) (hc : 128 ≤ b1) (hc2 : b1 ≤ 191) :
    utf8Decode (b :: b1 :: rest) =
      Char.ofNat ((b - 192) * 64 + (b1 - 128)) :: utf8Decode rest := by
  rw [utf8Decode.eq_def]
  show (if b ≤ 127 then _ else _) = _
  rw [if_neg (by omega), if_neg (by omega), if_pos (by omega)]
  show (if 128 ≤ b1 ∧ b1 ≤ 191 then _ else _) = _
  rw [if_pos ⟨hc, hc2⟩]

theorem utf8Decode_three (b b1 b2 : Nat) (rest : List Nat)
    (hb : 224 ≤ b) (hb2 : b ≤ 239)
    (hc : (if b = 224 then 160 else 128) ≤ b1) (hc2 : b1 ≤ (if b = 237 then 159 else 191))
    (hd : 128 ≤ b2) (hd2 : b2 ≤ 191) :
    utf8Decode (b :: b1 :: b2 :: rest) =
      Char.ofNat ((b - 224) * 4096 + (b1 - 128) * 64 + (b2 - 128)) :: utf8Decode rest := by
  rw [utf8Decode.eq_def]
  show (if b ≤ 127 then _ else _) = _
  rw [if_neg (by omega), if_neg (by omega), if_neg (by omega), if_pos (by omega)]
  show (if (if b = 224 then 160 else 128) ≤ b1 ∧ b1 ≤ (if b = 237 then 159 else 191)
      then _ else _) = _
  rw [if_pos ⟨hc, hc2⟩]
  show (if 128 ≤ b2 ∧ b2 ≤ 191 then _ else _) = _
  rw [if_pos ⟨hd, hd2⟩]

theorem utf8Decode_four (b b1 b2 b3 : Nat) (rest : List Nat)
    (hb : 240 ≤ b) (hb2 : b ≤ 244)
    (hc : (if b = 240 then 144 else 128) ≤ b1) (hc2 : b1 ≤ (if b = 244 then 143 else 191))
    (hd : 128 ≤ b2) (hd2 : b2 ≤ 191) (he : 128 ≤ b3) (he2 : b3 ≤ 191) :
    utf8Decode (b :: b1 :: b2 :: b3 :: rest) =
      Char.ofNat ((b - 240) * 262144 + (b1 - 128) * 4096 + (b2 - 128) * 64 + (b3 - 128)) ::
        utf8Decode rest := by
  rw [utf8Decode.eq_def]
  show (if b ≤ 127 then _ else _) = _
  rw [if_neg (by omega), if_neg (by omega), if_neg (by omega), if_neg (by omega),
    if_pos (by omega)]
  show (if (if b = 240 then 144 else 128) ≤ b1 ∧ b1 ≤ (if b = 244 then 143 else 191)
      then _ else _) = _
  rw [if_pos ⟨hc, hc2⟩]
  show (if 128 ≤ b2 ∧ b2 ≤ 191 then _ else _) = _
  rw [if_pos ⟨hd, hd2⟩]
  show (if 128 ≤ b3 ∧ b3 ≤ 191 then _ else _) = _
  rw [if_pos ⟨he, he2⟩]

theorem utf8Decode_encodeChar (n : Nat) (hv : n < 55296 ∨ (57344 ≤ n ∧ n < 1114112))
    (rest : List Nat) :
    utf8Decode (utf8EncodeChar n ++ rest) = Char.ofNat n :: utf8Decode rest := by
  by_cases h1 : n < 128
  · rw [utf8EncodeChar, if_pos h1, List.cons_append, List.nil_append,
      utf8Decode_one n rest (by omega)]
  · by_cases h2 : n < 2048
    · rw [utf8EncodeChar, if_neg h1, if_pos h2, List.cons_append, List.cons_append,
        List.nil_append,
        utf8Decode_two _ _ _ (by omega) (by omega) (by omega) (by omega)]
      rw [show (192 + n / 64 - 192) * 64 + (128 + n % 64 - 128) = n by omega]
    · by_cases h3 : n < 65536
      · rw [utf8EncodeChar, if_neg h1, if_neg h2, if_pos h3, List.cons_append,
          List.cons_append, List.cons_append, List.nil_append,
          utf8Decode_three _ _ _ _ (by omega) (by omega)
            (by split <;> omega)
            (by rcases hv with hv | hv <;> split <;> omega)
            (by omega) (by omega)]
        rw [show (224 + n / 4096 - 224) * 4096 + (128 + n / 64 % 64 - 128) * 64 +
          (128 + n % 64 - 128) = n by omega]
      · rw [utf8EncodeChar, if_neg h1, if_neg h2, if_neg h3, List.cons_append,
          List.cons_append, List.cons_append, List.cons_append, List.nil_append,
          utf8Decode_four _ _ _ _ _ (by omega) (by rcases hv with hv | hv <;> omega)
            (by split <;> omega)
            (by rcases hv with hv | hv <;> split <;> omega)
            (by omega) (by omega) (by omega) (by omega)]
        rw [show (240 + n / 262144 - 240) * 262144 + (128 + n / 4096 % 64 - 128) * 4096 +
          (128 + n / 64 % 64 - 128) * 64 + (128 + n % 64 - 128) = n by omega]

theorem utf8Decode_utf8Encode (s : List Char) : utf8Decode (utf8Encode s) = s := by
  induction s with
  | nil => rw [utf8Encode, utf8Decode.eq_def]
  | cons c cs ih =>
    rw [utf8Encode, utf8Decode_encodeChar c.toNat (charValid c) _, ih, Char.ofNat_toNat]

theorem utf8EncodeChar_lt (n : Nat) (h : n < 1114112) : ∀ b ∈ utf8EncodeChar n, b < 256 := by
  intro b hb
  rw [utf8EncodeChar] at hb
  split at hb
  · simp at hb
    omega
  · split at hb
    · simp at hb
      rcases hb with rfl | rfl <;> omega
    · split at hb
      · simp at hb
        rcases hb with rfl | rfl | rfl <;> omega
      · simp at hb
        rcases hb with rfl | rfl | rfl | rfl <;> omega

theorem utf8Encode_lt (s : List Char) : ∀ b ∈ utf8Encode s, b < 256 := by
  induction s with
  | nil =>
    intro b hb
    simp [utf8Encode] at hb
  | cons c cs ih =>
    intro b hb
    rw [utf8Encode] at hb
    rcases List.mem_append.mp hb with hm | hm
    · rcases charValid c with hv | hv <;> exact utf8EncodeChar_lt c.toNat (by omega) b hm
    · exact ih b hm

theorem utf8EncodeChar_ne_nil (n : Nat) : utf8EncodeChar n ≠ [] := by
  rw [utf8EncodeChar]
  split
  · simp
  · split
    · simp
    · split <;> simp

theorem utf8Encode_ne_nil (s : List Char) (h : s ≠ []) : utf8Encode s ≠ [] := by
  cases s with
  | nil => exact absurd rfl h
  | cons c cs =>
    rw [utf8Encode]
    intro hc
    rcases List.append_eq_nil.mp hc with ⟨h1, h2⟩
    exact utf8EncodeChar_ne_nil c.toNat h1

theorem encDigits_ne_nil (bs : List Nat) (h : bs ≠ []) : encDigits bs ≠ [] := by
  rcases bs with _ | ⟨a, _ | ⟨b, _ | ⟨c, rest⟩⟩⟩
  · exact absurd rfl h
  · simp [encDigits]
  · simp [encDigits]
  · simp [encDigits]

theorem base64Encode_ne_nil (bs : List Nat) (h : bs ≠ []) : base64Encode bs ≠ [] := by
  rw [base64Encode]
  intro hc
  rcases List.append_eq_nil.mp hc with ⟨h1, h2⟩
  exact encDigits_ne_nil bs h (List.map_eq_nil_iff.mp h1)

theorem encodeShaderForUrl_ne_nil (s : List Char) (h : s ≠ []) :
    encodeShaderForUrl s ≠ [] := by
  rw [encodeShaderForUrl]
  intro hc
  exact base64Encode_ne_nil _ (utf8Encode_ne_nil s h) (List.map_eq_nil_iff.mp hc)

theorem urlSubst_roundtrip (c : Char) (h1 : c ≠ '-') (h2 : c ≠ '_') :
    urlSubstDecode (urlSubstEncode c) = c := by
  by_cases hp : c = '+'
  · subst hp
    decide
  · by_cases hs : c = '/'
    · subst hs
      decide
    · rw [urlSubstEncode, if_neg hp, if_neg hs, urlSubstDecode, if_neg h1, if_neg h2]

theorem map_decode_encode (s : List Char) :
    (encodeShaderForUrl s).map urlSubstDecode = base64Encode (utf8Encode s) := by
  rw [encodeShaderForUrl, List.map_map]
  have hid : ∀ c ∈ base64Encode (utf8Encode s), (urlSubstDecode ∘ urlSubstEncode) c = id c := by
    intro c hcm
    rw [base64Encode] at hcm
    rcases List.mem_append.mp hcm with hm | hm
    · rcases List.mem_map.mp hm with ⟨d, hd, rfl⟩
      have hp := b64Char_props_fin ⟨d, encDigits_lt _ (utf8Encode_lt s) d hd⟩
      exact urlSubst_roundtrip _ hp.2.1 hp.2.2.1
    · have hce : c = '=' := List.eq_of_mem_replicate hm
      subst hce
      decide
  rw [List.map_congr_left hid, List.map_id]

theorem decode_encode_aux (s : List Char) (h : s ≠ []) :
    getShaderFromUrl (encodeShaderForUrl s) = some s := by
  rw [getShaderFromUrl, if_neg (encodeShaderForUrl_ne_nil s h), map_decode_encode s,
    atob_base64Encode _ (utf8Encode_lt s)]
  show some (utf8Decode (utf8Encode s)) = some s
  rw [utf8Decode_utf8Encode]

theorem dropWhile_exists_drop (p : Char → Bool) (l : List Char) :
    ∃ k, l.dropWhile p = l.drop k := by
  induction l with
  | nil => exact ⟨0, rfl⟩
  | cons c cs ih =>
    by_cases h : p c
    · obtain ⟨k, hk⟩ := ih
      exact ⟨k + 1, by rw [List.dropWhile_cons_of_pos h, hk]; rfl⟩
    · exact ⟨0, by rw [List.dropWhile_cons_of_neg h, List.drop_zero]⟩

theorem dropWhile_head_false (p : Char → Bool) (l : List Char) (c : Char) (cs : List Char)
    (h : l.dropWhile p = c :: cs) : p c = false := by
  induction l with
  | nil => simp at h
  | cons a as ih =>
    rw [List.dropWhile_cons] at h
    split at h
    · exact ih h
    · next hpa =>
      injection h with h1 h2
      subst h1
      exact Bool.eq_false_iff.mpr hpa

theorem dropWhile_idem (p : Char → Bool) (l : List Char) :
    (l.dropWhile p).dropWhile p = l.dropWhile p := by
  rcases hdw : l.dropWhile p with _ | ⟨c, cs⟩
  · rfl
  · have hc := dropWhile_head_false p l c cs hdw
    rw [List.dropWhile_cons_of_neg (by simp [hc])]

theorem dropWhile_fix_take (p : Char → Bool) (l : List Char) (m : Nat)
    (h : l.dropWhile p = l) : (l.take m).dropWhile p = l.take m := by
  cases l with
  | nil => simp
  | cons c cs =>
    have hc : p c = false := by
      by_cases hpc : p c
      · rw [List.dropWhile_cons_of_pos hpc] at h
        obtain ⟨k, hk⟩ := dropWhile_exists_drop p cs
        rw [hk] at h
        have hlen := congrArg List.length h
        simp [List.length_drop] at hlen
        omega
      · exact Bool.eq_false_iff.mpr hpc
    cases m with
    | zero => simp
    | succ m' =>
      rw [List.take_succ_cons, List.dropWhile_cons_of_neg (by rw [hc]; simp)]

theorem trimEnd_eq_take (y : List Char) : ∃ m, trimEnd y = y.take m := by
  obtain ⟨e, he⟩ := dropWhile_exists_drop isJsWhitespace y.reverse
  refine ⟨y.length - e, ?_⟩
  rw [trimEnd, he, List.drop_reverse, List.reverse_reverse]

theorem trimEnd_idem (y : List Char) : trimEnd (trimEnd y) = trimEnd y := by
  rw [trimEnd, trimEnd, List.reverse_reverse, dropWhile_idem]

theorem jsTrim_idem (x : List Char) : jsTrim (jsTrim x) = jsTrim x := by
  have hfix : (x.dropWhile isJsWhitespace).dropWhile isJsWhitespace =
      x.dropWhile isJsWhitespace := dropWhile_idem _ x
  obtain ⟨m, hm⟩ := trimEnd_eq_take (x.dropWhile isJsWhitespace)
  have hA : (trimEnd (x.dropWhile isJsWhitespace)).dropWhile isJsWhitespace =
      trimEnd (x.dropWhile isJsWhitespace) := by
    rw [hm]
    exact dropWhile_fix_take _ _ m hfix
  rw [jsTrim, jsTrim, hA, trimEnd_idem]

theorem jsTrim_prepend_ws (z x : List Char) (hz : ∀ c ∈ z, isJsWhitespace c = true) :
    jsTrim (z ++ x) = jsTrim x := by
  rw [jsTrim, jsTrim, List.dropWhile_append_of_pos hz]

theorem trimEnd_append_ws (x z : List Char) (hz : ∀ c ∈ z, isJsWhitespace c = true) :
    trimEnd (x ++ z) = trimEnd x := by
  rw [trimEnd, trimEnd, List.reverse_append,
    List.dropWhile_append_of_pos (fun a ha => hz a (List.mem_reverse.mp ha))]

theorem jsTrim_append_ws (x z : List Char) (hz : ∀ c ∈ z, isJsWhitespace c = true) :
    jsTrim (x ++ z) = jsTrim x := by
  rw [jsTrim, jsTrim]
  rcases hdw : x.dropWhile isJsWhitespace with _ | ⟨c, cs⟩
  · have hx : ∀ c ∈ x, isJsWhitespace c = true := List.dropWhile_eq_nil_iff.mp hdw
    rw [List.dropWhile_append_of_pos hx, List.dropWhile_eq_nil_iff.mpr hz]
  · have happ : (x ++ z).dropWhile isJsWhitespace = x.dropWhile isJsWhitespace ++ z := by
      rw [List.dropWhile_append, hdw]
      simp
    rw [happ, trimEnd_append_ws _ _ hz, hdw]

theorem jsTrim_eq_drop_take (x : List Char) : ∃ d m, jsTrim x = (x.drop d).take m := by
  obtain ⟨d, hd⟩ := dropWhile_exists_drop isJsWhitespace x
  obtain ⟨m, hm⟩ := trimEnd_eq_take (x.drop d)
  exact ⟨d, m, by rw [jsTrim, hd, hm]⟩

theorem startsWith_take_transfer (pat y : List Char) (hp : pat ≠ []) (k j : Nat)
    (h : startsWith pat ((y.take k).drop j) = true) :
    startsWith pat (y.drop j) = true ∧ j + pat.length ≤ k := by
  rw [List.drop_take, startsWith_iff, List.take_take] at h
  have hlen := congrArg List.length h
  rw [List.length_take] at hlen
  have hpos : 0 < pat.length := List.length_pos.mpr hp
  constructor
  · rw [startsWith_iff]
    rw [show min pat.length (k - j) = pat.length by omega] at h
    exact h
  · omega

theorem noOcc_jsTrim_take (t : List Char) (i : Nat)
    (hmin : ∀ j < i, startsWith INJECTION_MARKER (t.drop j) = false) :
    ∀ j, startsWith INJECTION_MARKER ((jsTrim (t.take i)).drop j) = false := by
  intro j
  by_contra hcon
  simp only [Bool.not_eq_false] at hcon
  obtain ⟨d, m, hT⟩ := jsTrim_eq_drop_take (t.take i)
  rw [hT] at hcon
  obtain ⟨h1, h2⟩ := startsWith_take_transfer _ _ (by decide) m j hcon
  rw [List.drop_drop] at h1
  obtain ⟨h3, h4⟩ := startsWith_take_transfer _ _ (by decide) i (d + j) h1
  have hpos : 0 < INJECTION_MARKER.length := by decide
  have := hmin (d + j) (by omega)
  rw [this] at h3
  exact absurd h3 (by decide)

theorem startsWith_getElem? (pat t : List Char) (j k : Nat)
    (h : startsWith pat (t.drop j) = true) (hk : k < pat.length) :
    t[j + k]? = pat[k]? := by
  rw [startsWith_iff] at h
  rw [← h, List.getElem?_take_of_lt hk, List.getElem?_drop]

theorem marker_at (T I : List Char) :
    startsWith INJECTION_MARKER
      ((T ++ '\n' :: '\n' :: (INJECTION_MARKER ++ '\n' :: I)).drop (T.length + 2)) = true := by
  have hsplit : T ++ '\n' :: '\n' :: (INJECTION_MARKER ++ '\n' :: I) =
      (T ++ ['\n', '\n']) ++ (INJECTION_MARKER ++ '\n' :: I) := by
    simp
  rw [hsplit, List.drop_left' (by simp)]
  exact startsWith_append _ _

theorem no_early_marker (T I : List Char)
    (hT : ∀ j, startsWith INJECTION_MARKER (T.drop j) = false) :
    ∀ j < T.length + 2,
      startsWith INJECTION_MARKER
        ((T ++ '\n' :: '\n' :: (INJECTION_MARKER ++ '\n' :: I)).drop j) = false := by
  intro j hj
  by_contra hcon
  simp only [Bool.not_eq_false] at hcon
  have hm19 : INJECTION_MARKER.length = 19 := by decide
  by_cases hcase : j + INJECTION_MARKER.length ≤ T.length
  · have h1 : startsWith INJECTION_MARKER (T.drop j) = true := by
      rw [startsWith_iff] at hcon ⊢
      rw [List.drop_append_of_le_length (by omega)] at hcon
      rw [List.take_append_of_le_length (by rw [List.length_drop]; omega)] at hcon
      exact hcon
    rw [hT j] at h1
    exact absurd h1 (by decide)
  · have hnl : ∀ k, k < INJECTION_MARKER.length → INJECTION_MARKER[k]? ≠ some '\n' := by decide
    by_cases hj2 : j ≤ T.length
    · have hk : T.length - j < INJECTION_MARKER.length := by omega
      have hchar := startsWith_getElem? _ _ j (T.length - j) hcon hk
      rw [show j + (T.length - j) = T.length by omega] at hchar
      have hwhole : (T ++ '\n' :: '\n' :: (INJECTION_MARKER ++ '\n' :: I))[T.length]? =
          some '\n' := by
        rw [List.getElem?_append_right (Nat.le_refl _)]
        simp
      rw [hwhole] at hchar
      exact absurd hchar.symm (hnl _ hk)
    · have hj3 : j = T.length + 1 := by omega
      have hk : (0 : Nat) < INJECTION_MARKER.length := by decide
      have hchar := startsWith_getElem? _ _ j 0 hcon hk
      rw [hj3, show T.length + 1 + 0 = T.length + 1 by omega] at hchar
      have hwhole : (T ++ '\n' :: '\n' :: (INJECTION_MARKER ++ '\n' :: I))[T.length + 1]? =
          some '\n' := by
        rw [List.getElem?_append_right (by omega)]
        rw [show T.length + 1 - T.length = 1 by omega]
        simp
      rw [hwhole] at hchar
      exact absurd hchar.symm (hnl 0 hk)

theorem parseShader_join_aux (t : List Char) (i : Nat)
    (h : indexOf? INJECTION_MARKER t = some i) :
    parseShader (joinProgram (parseShader t)) = parseShader t := by
  obtain ⟨hocc, hmin⟩ := indexOf?_eq_some _ _ _ h
  have hps : parseShader t =
      ⟨jsTrim (t.take i), jsTrim (t.drop (i + INJECTION_MARKER.length))⟩ := by
    rw [parseShader, h]
  rw [hps]
  have hTno : ∀ j,
      startsWith INJECTION_MARKER ((jsTrim (t.take i)).drop j) = false :=
    noOcc_jsTrim_take t i hmin
  have hjoin : joinProgram ⟨jsTrim (t.take i), jsTrim (t.drop (i + INJECTION_MARKER.length))⟩ =
      jsTrim (t.take i) ++ '\n' :: '\n' ::
        (INJECTION_MARKER ++ '\n' :: jsTrim (t.drop (i + INJECTION_MARKER.length))) := by
    rw [joinProgram]
    simp
  rw [hjoin]
  have hidx2 : indexOf? INJECTION_MARKER
      (jsTrim (t.take i) ++ '\n' :: '\n' ::
        (INJECTION_MARKER ++ '\n' :: jsTrim (t.drop (i + INJECTION_MARKER.length)))) =
      some ((jsTrim (t.take i)).length + 2) :=
    indexOf?_eq_some_of _ _ _ (marker_at _ _) (no_early_marker _ _ hTno)
  rw [parseShader, hidx2]
  have htake : (jsTrim (t.take i) ++ '\n' :: '\n' ::
      (INJECTION_MARKER ++ '\n' :: jsTrim (t.drop (i + INJECTION_MARKER.length)))).take
        ((jsTrim (t.take i)).length + 2) = jsTrim (t.take i) ++ ['\n', '\n'] := by
    have hsplit : jsTrim (t.take i) ++ '\n' :: '\n' ::
        (INJECTION_MARKER ++ '\n' :: jsTrim (t.drop (i + INJECTION_MARKER.length))) =
        (jsTrim (t.take i) ++ ['\n', '\n']) ++
          (INJECTION_MARKER ++ '\n' :: jsTrim (t.drop (i + INJECTION_MARKER.length))) := by
      simp
    rw [hsplit, List.take_left' (by simp)]
  have hdrop : (jsTrim (t.take i) ++ '\n' :: '\n' ::
      (INJECTION_MARKER ++ '\n' :: jsTrim (t.drop (i + INJECTION_MARKER.length)))).drop
        ((jsTrim (t.take i)).length + 2 + INJECTION_MARKER.length) =
      '\n' :: jsTrim (t.drop (i + INJECTION_MARKER.length)) := by
    have hsplit : jsTrim (t.take i) ++ '\n' :: '\n' ::
        (INJECTION_MARKER ++ '\n' :: jsTrim (t.drop (i + INJECTION_MARKER.length))) =
        ((jsTrim (t.take i) ++ ['\n', '\n']) ++ INJECTION_MARKER) ++
          '\n' :: jsTrim (t.drop (i + INJECTION_MARKER.length)) := by
      simp
    rw [hsplit, List.drop_left' (by simp; omega)]
  show ShaderProgram.mk _ _ = ShaderProgram.mk _ _
  rw [htake, hdrop]
  have h1 : jsTrim (jsTrim (t.take i) ++ ['\n', '\n']) = jsTrim (t.take i) := by
    rw [jsTrim_append_ws _ _ (by decide), jsTrim_idem]
  have h2 : jsTrim ('\n' :: jsTrim (t.drop (i + INJECTION_MARKER.length))) =
      jsTrim (t.drop (i + INJECTION_MARKER.length)) := by
    rw [show '\n' :: jsTrim (t.drop (i + INJECTION_MARKER.length)) =
      ['\n'] ++ jsTrim (t.drop (i + INJECTION_MARKER.length)) from rfl]
    rw [jsTrim_prepend_ws _ _ (by decide), jsTrim_idem]
  rw [h1, h2]

/-- C1 (counterexample): for the empty text, decoding the encoding yields
`invalid` (`none`) rather than the empty text, because `getShaderFromUrl`
treats an empty fragment as invalid. -/
theorem decode_encode_empty_fails :
    getShaderFromUrl (encodeShaderForUrl []) = none ∧
    getShaderFromUrl (encodeShaderForUrl []) ≠ some [] := by
  constructor
  · rfl
  · decide

/-- C1 (amended): for every non-empty text `s`, decoding the URL-state
encoding of `s` returns `s`: UTF-8 encoding, base64, and the `'+'→'-'`,
`'/'→'_'` substitution are reversed exactly by `getShaderFromUrl`. -/
theorem decode_encode_roundtrip (s : List Char) (h : s ≠ []) :
    getShaderFromUrl (encodeShaderForUrl s) = some s :=
  decode_encode_aux s h

theorem decode_encode_roundtrip_witness :
    (("Aé😀z").toList ≠ []) ∧
    getShaderFromUrl (encodeShaderForUrl (("Aé😀z").toList)) = some (("Aé😀z").toList) :=
  ⟨by decide, decode_encode_roundtrip _ (by decide)⟩

/-- C3 (counterexample): the program produced by `split` on the empty text
does not survive `split (join p)`: the default injection snippet ends in a
newline, and re-splitting trims it away. -/
theorem split_join_fails_on_default :
    parseShader (joinProgram (parseShader [])) ≠ parseShader [] := by
  decide

/-- C3 (amended): for every program produced by `split` on a text that
contains the marker, re-splitting the joined single-buffer form returns
the same program: both parts come back trimmed, and the template part
cannot contain the marker, so the join's marker line is the first
occurrence. -/
theorem split_join_roundtrip (t : List Char) (i : Nat)
    (h : indexOf? INJECTION_MARKER t = some i) :
    parseShader (joinProgram (parseShader t)) = parseShader t :=
  parseShader_join_aux t i h

theorem split_join_roundtrip_witness :
    indexOf? INJECTION_MARKER (("a\n// Injection point:\nb").toList) = some 2 ∧
    parseShader (joinProgram (parseShader (("a\n// Injection point:\nb").toList))) =
      parseShader (("a\n// Injection point:\nb").toList) :=
  ⟨by decide, split_join_roundtrip _ 2 (by decide)⟩

/-- C5 (counterexample): a token outside the base64url alphabet can still
decode: `"++++"` is not base64url, yet `getShaderFromUrl` accepts it
(`atob` understands `'+'`), returning replacement characters rather than
`invalid`. -/
theorem decode_accepts_non_base64url :
    isBase64UrlToken (("++++").toList) = false ∧
    getShaderFromUrl (("++++").toList) ≠ none := by
  constructor
  · decide
  · decide

/-- C5 (amended): decoding the empty token yields `invalid`, and decoding
yields `invalid` whenever forgiving base64 rejects the substituted token;
decode is total (`Option`-valued) and never throws.  (Tokens outside the
strict base64url alphabet that still form valid base64 after substitution
— e.g. containing `'+'`, `'/'` or ASCII whitespace — are accepted.) -/
theorem decode_invalid_cases (t : List Char) :
    getShaderFromUrl [] = none ∧
    (atob (t.map urlSubstDecode) = none → getShaderFromUrl t = none) := by
  refine ⟨rfl, fun h => ?_⟩
  rw [getShaderFromUrl]
  by_cases ht : t = []
  · rw [if_pos ht]
  · rw [if_neg ht, h]

theorem decode_invalid_cases_witness :
    atob ((("!!").toList).map urlSubstDecode) = none ∧
    getShaderFromUrl (("!!").toList) = none :=
  ⟨by decide, (decode_invalid_cases (("!!").toList)).2 (by decide)⟩

/-- C10: a well-formed base64 token whose bytes are not valid UTF-8 still
decodes to text, with ill-formed sequences replaced by U+FFFD (`"_w=="`
decodes to the byte `0xFF` and yields one replacement character); decode
signals `invalid` exactly when the token is empty or base64 decoding of
the substituted token fails. -/
theorem decode_replacement_not_invalid :
    getShaderFromUrl (("_w==").toList) = some [replChar] ∧
    ∀ t : List Char,
      getShaderFromUrl t = none ↔ (t = [] ∨ atob (t.map urlSubstDecode) = none) := by
  constructor
  · have h255 : atob ((("_w==").toList).map urlSubstDecode) = some [255] := by decide
    rw [getShaderFromUrl, if_neg (by decide), h255]
    have hd : utf8Decode [255] = [replChar] := by
      rw [utf8Decode.eq_def]
      show (if (255 : Nat) ≤ 127 then _ else _) = _
      rw [if_neg (by omega), if_neg (by omega), if_neg (by omega), if_neg (by omega),
        if_neg (by omega)]
      rw [show utf8Decode [] = [] from by rw [utf8Decode.eq_def]]
    show some (utf8Decode [255]) = some [replChar]
    rw [hd]
  · intro t
    constructor
    · intro h
      by_cases ht : t = []
      · exact Or.inl ht
      · right
        rw [getShaderFromUrl, if_neg ht] at h
        rcases hm : atob (t.map urlSubstDecode) with _ | bytes
        · rfl
        · rw [hm] at h
          exact absurd h (by simp)
    · intro h
      rcases h with rfl | h
      · rfl
      · rw [getShaderFromUrl]
        by_cases ht : t = []
        · rw [if_pos ht]
        · rw [if_neg ht, h]

/-- C6: a failing compile surfaces the parser's message unmodified and
changes nothing else — URL state, applied shader, reload flag and pane
bindings are untouched; live typing never changes the URL; only a compile
whose template part parses writes the encoded edit buffer to the URL and
requests the reload. -/
theorem compile_failure_behavior (glslParse : List Char → Except (List Char) Unit)
    (st : AppState) (e : List Char)
    (hfail : glslParse (parseShader st.shaderText).fragmentShader = Except.error e) :
    handleCompile glslParse st = { st with compileError := some e } ∧
    (handleCompile glslParse st).urlHash = st.urlHash ∧
    (handleCompile glslParse st).appliedShader = st.appliedShader ∧
    (handleCompile glslParse st).reloadRequested = st.reloadRequested ∧
    renderPanes (handleCompile glslParse st) = renderPanes st ∧
    (∀ txt : List Char, ∀ s : AppState, (setShaderText txt s).urlHash = s.urlHash) ∧
    (∀ s : AppState, glslParse (parseShader s.shaderText).fragmentShader = Except.ok () →
      (handleCompile glslParse s).urlHash = encodeShaderForUrl s.shaderText ∧
      (handleCompile glslParse s).reloadRequested = true) := by
  have hc : handleCompile glslParse st = { st with compileError := some e } := by
    rw [handleCompile, hfail]
  refine ⟨hc, by rw [hc], by rw [hc], by rw [hc], by rw [hc]; rfl, fun txt s => rfl, ?_⟩
  intro s hok
  rw [handleCompile, hok]
  exact ⟨rfl, rfl⟩

theorem compile_failure_behavior_witness :
    rejectParser (parseShader demoState.shaderText).fragmentShader =
      Except.error (("E").toList) ∧
    handleCompile rejectParser demoState =
      { demoState with compileError := some (("E").toList) } :=
  ⟨rfl, (compile_failure_behavior rejectParser demoState (("E").toList) rfl).1⟩

/-- C8: in every state reachable from a mounted app, the baseline pane is
bound to no custom shader props and so resolves to the built-in default
program, the custom pane is bound to the split of the applied shader,
typing never changes the pane bindings or the applied shader, and the
applied shader changes only through a requested reload that decodes the
URL state (set only by a successful compile), never from the edit
buffer. -/
theorem panes_invariant (glslParse : List Char → Except (List Char) Unit)
    (hash : List Char) (st0 st : AppState)
    (hinit : initApp hash = some st0)
    (hreach : Relation.ReflTransGen (AppStep glslParse) st0 st) :
    (renderPanes st).1 = none ∧
    resolveShaders (renderPanes st).1 = ⟨fs, DECKGL_MUTATE_COLOR⟩ ∧
    (renderPanes st).2 = some (parseShader st.appliedShader) ∧
    (∀ txt, renderPanes (setShaderText txt st) = renderPanes st ∧
      (setShaderText txt st).appliedShader = st.appliedShader) ∧
    (∀ st' : AppState, AppStep glslParse st st' → st'.appliedShader ≠ st.appliedShader →
      st.reloadRequested = true ∧ getShaderFromUrl st.urlHash = some st'.appliedShader ∧
        st'.appliedShader = st'.shaderText) := by
  refine ⟨rfl, rfl, rfl, fun txt => ⟨rfl, rfl⟩, ?_⟩
  intro st' hstep hne
  cases hstep with
  | edit txt _ => exact absurd rfl hne
  | compile _ =>
    exfalso
    apply hne
    rcases hp : glslParse (parseShader st.shaderText).fragmentShader with e | u
    · rw [handleCompile, hp]
    · rw [handleCompile, hp]
  | reload _ st' hreq hmount =>
    rw [initApp] at hmount
    rcases hg : getShaderFromUrl st.urlHash with _ | s
    · rw [hg] at hmount
      cases hmount
    · rw [hg] at hmount
      have hmount2 : (if s = [] then none
          else some (⟨s, s, none, st.urlHash, false⟩ : AppState)) = some st' := hmount
      by_cases hs : s = []
      · rw [if_pos hs] at hmount2
        cases hmount2
      · rw [if_neg hs] at hmount2
        have hval : st' = ⟨s, s, none, st.urlHash, false⟩ := by
          injection hmount2 with h2
          exact h2.symm
        rw [hval]
        exact ⟨hreq, rfl, rfl⟩

theorem panes_invariant_witness :
    (renderPanes demoState).2 = some (parseShader demoState.appliedShader) :=
  (panes_invariant acceptParser (encodeShaderForUrl (("x").toList)) demoState demoState
    (by
      rw [initApp, decode_encode_aux (("x").toList) (by decide)]
      show (if ("x").toList = [] then none else some _) = some demoState
      rw [if_neg (by decide)]
      rfl)
    Relation.ReflTransGen.refl).2.2.1

/-- C9: "Copy link" writes origin ++ path ++ query ++ '#' ++ the encoding
of the current edit buffer; the URL depends only on the location parts and
the edit buffer (not on the applied shader or any compile), and for a
non-empty edit buffer its fragment decodes back to the edited text. -/
theorem copyLink_encodes_edit_buffer (origin pathname search : List Char) (st : AppState) :
    handleCopyLink origin pathname search st =
      origin ++ pathname ++ search ++ ("#").toList ++ encodeShaderForUrl st.shaderText ∧
    (∀ st' : AppState, st'.shaderText = st.shaderText →
      handleCopyLink origin pathname search st' = handleCopyLink origin pathname search st) ∧
    (st.shaderText ≠ [] →
      getShaderFromUrl (encodeShaderForUrl st.shaderText) = some st.shaderText) := by
  refine ⟨rfl, ?_, fun h => decode_encode_aux _ h⟩
  intro st' h
  rw [handleCopyLink, handleCopyLink, h]

theorem copyLink_encodes_edit_buffer_witness :
    demoState.shaderText ≠ [] ∧
    handleCopyLink (("https://h").toList) (("/p").toList) [] demoState =
      ("https://h").toList ++ ("/p").toList ++ [] ++ ("#").toList ++
        encodeShaderForUrl demoState.shaderText :=
  ⟨by decide, (copyLink_encodes_edit_buffer _ _ _ demoState).1⟩

theorem appMount_valid (p : PageState) (s : List Char)
    (hg : getShaderFromUrl p.hash = some s) (hs : s ≠ []) :
    appMount p = { p with rendered := true } := by
  rw [appMount, hg]
  show (if s = [] then ({ p with hash := encodeShaderForUrl fragmentShader } : PageState)
    else { p with rendered := true }) = { p with rendered := true }
  rw [if_neg hs]

theorem appMount_invalid (p : PageState) (hg : getShaderFromUrl p.hash = none) :
    appMount p = { p with hash := encodeShaderForUrl fragmentShader } := by
  rw [appMount, hg]

/-- C7 (code bug): with an empty fragment the bootstrap writes the encoded
default and forces one reload, after which initialisation succeeds; but
with a nonempty undecodable fragment the app only rewrites the address bar
via a fragment-only `location.replace`, which does not reload — no reload
is triggered, initialisation never runs again, and the page stays on the
loading screen, contradicting the claimed settling behaviour. -/
theorem bootstrap_invalid_fragment_stalls :
    (mainBootstrap ⟨[], false, false⟩).hash = encodeShaderForUrl fragmentShader ∧
    (mainBootstrap ⟨[], false, false⟩).reloaded = true ∧
    (mainBootstrap ⟨(mainBootstrap ⟨[], false, false⟩).hash, false, false⟩).rendered = true ∧
    (mainBootstrap ⟨("%%%").toList, false, false⟩).hash = encodeShaderForUrl fragmentShader ∧
    (mainBootstrap ⟨("%%%").toList, false, false⟩).reloaded = false ∧
    (mainBootstrap ⟨("%%%").toList, false, false⟩).rendered = false := by
  have hfs_ne : fragmentShader ≠ [] := by decide
  have hdec : getShaderFromUrl (encodeShaderForUrl fragmentShader) = some fragmentShader :=
    decode_encode_aux _ hfs_ne
  have hempty : mainBootstrap ⟨[], false, false⟩ =
      ⟨encodeShaderForUrl fragmentShader, true, false⟩ := by
    rw [mainBootstrap, if_pos rfl]
  have hre : mainBootstrap ⟨encodeShaderForUrl fragmentShader, false, false⟩ =
      ⟨encodeShaderForUrl fragmentShader, false, true⟩ := by
    rw [mainBootstrap,
      if_neg (show ¬((⟨encodeShaderForUrl fragmentShader, false, false⟩ : PageState).hash = [])
        from encodeShaderForUrl_ne_nil _ hfs_ne)]
    exact appMount_valid _ fragmentShader hdec hfs_ne
  have hbad : mainBootstrap ⟨("%%%").toList, false, false⟩ =
      ⟨encodeShaderForUrl fragmentShader, false, false⟩ := by
    rw [mainBootstrap,
      if_neg (show ¬((⟨("%%%").toList, false, false⟩ : PageState).hash = []) from by decide)]
    exact appMount_invalid _ (by decide)
  rw [hempty, hbad]
  refine ⟨rfl, rfl, ?_, rfl, rfl, rfl⟩
  show (mainBootstrap ⟨encodeShaderForUrl fragmentShader, false, false⟩).rendered = true
  rw [hre]
